import Mathlib

/-!
Verification of the ergane crawler core against its specification.

The definitions below are a shallow embedding of the Python source:
  - `src/ergane/crawler/scheduler.py` (URL frontier: dedup, priority queue,
    checkpoint state),
  - `src/ergane/crawler/fetcher.py` (token bucket, fetch with robots.txt,
    cache, retry/backoff),
  - `src/ergane/crawler/engine.py` (page-budget claiming in the worker pool),
  - `src/ergane/crawler/pipeline.py` (batch consolidation).

Machine floats are modelled as rationals; Python strings as lists of
characters with ASCII semantics (all URLs in the specification are ASCII);
the stdlib helpers used by the source (urlparse, parse_qsl, urlencode,
str.rstrip, str.lower, heapq) are embedded alongside the repository code.
-/

set_option maxHeartbeats 1000000

namespace Ergane

/-! ### Python stdlib URL helpers, as used by Scheduler._normalize_url -/

/-- ASCII str.lower on one character (the URLs involved are ASCII). -/
def lowerChar (c : Char) : Char :=
  if 65 ≤ c.toNat ∧ c.toNat ≤ 90 then Char.ofNat (c.toNat + 32) else c

/-- ASCII str.lower on a character list. -/
def lowerL (l : List Char) : List Char := l.map lowerChar

/-- urllib scheme_chars: letters, digits, and the characters plus, minus, dot. -/
def isSchemeChar (c : Char) : Bool :=
  c.isAlpha || c.isDigit || c = '+' || c = '-' || c = '.'

/-- C0 control characters and space, stripped by urlsplit from both ends. -/
def isC0OrSpace (c : Char) : Bool := c.toNat ≤ 32

/-- The WHATWG pre-cleaning urlsplit applies before parsing: strip leading and
    trailing C0-control/space characters, then remove every tab, CR and LF. -/
def preclean (l : List Char) : List Char :=
  (((l.dropWhile isC0OrSpace).reverse.dropWhile isC0OrSpace).reverse).filter
    (fun c => !(c = '\t' || c = '\n' || c = '\r'))

/-- Split a character list at the first occurrence of `sep` (the separator is
    dropped); `none` when `sep` does not occur. -/
def splitAtFirst (sep : Char) : List Char → Option (List Char × List Char)
  | [] => none
  | c :: rest =>
    if c = sep then some ([], rest)
    else
      match splitAtFirst sep rest with
      | some (a, b) => some (c :: a, b)
      | none => none

/-- Scheme extraction of urlsplit: the part before the first colon is the
    scheme when it is nonempty, starts with an ASCII letter and consists of
    scheme characters; urlsplit lowercases the scheme itself. Otherwise the
    URL is left whole with an empty scheme. -/
def splitScheme (l : List Char) : List Char × List Char :=
  match splitAtFirst ':' l with
  | some (pre, post) =>
    match pre with
    | [] => ([], l)
    | c0 :: _ => if c0.isAlpha && pre.all isSchemeChar then (lowerL pre, post) else ([], l)
  | none => ([], l)

/-- A character ending the netloc portion in urlsplit. -/
def isNetlocEnd (c : Char) : Bool := c = '/' || c = '?' || c = '#'

/-- Netloc extraction of urlsplit: after a leading double slash, the netloc
    runs until the first slash, question mark or hash. -/
def splitNetloc (l : List Char) : List Char × List Char :=
  match l with
  | '/' :: '/' :: rest =>
    (rest.takeWhile (fun c => !isNetlocEnd c), rest.dropWhile (fun c => !isNetlocEnd c))
  | _ => ([], l)

/-- Split at the first occurrence of `sep`, keeping everything when absent
    (str.split with maxsplit one, as urlsplit uses for fragment and query). -/
def cutAtFirst (sep : Char) (l : List Char) : List Char × List Char :=
  match splitAtFirst sep l with
  | some (a, b) => (a, b)
  | none => (l, [])

/-- urlparse's param splitting: a semicolon inside the last path segment
    separates the params from the path. -/
def splitParams (p : List Char) : List Char × List Char :=
  let seg := (p.reverse.takeWhile (fun c => c ≠ '/')).reverse
  let pre := p.take (p.length - seg.length)
  match splitAtFirst ';' seg with
  | some (a, b) => (pre ++ a, b)
  | none => (p, [])

/-- The components of urlparse used by the scheduler's normalization. -/
structure UrlParts where
  scheme : List Char
  netloc : List Char
  path : List Char
  query : List Char
deriving DecidableEq, Repr

/-- urlparse, restricted to the components the normalization reads.  The
    fragment is split off (and discarded) before the query, as in urlsplit. -/
def urlparts (url : String) : UrlParts :=
  let l := preclean url.data
  let sp := splitScheme l
  let np := splitNetloc sp.2
  let bf := cutAtFirst '#' np.2
  let pq := cutAtFirst '?' bf.1
  let pp := splitParams pq.1
  ⟨sp.1, np.1, pp.1, pq.2⟩

/-- str.split on every occurrence of a separator. -/
def splitOn (sep : Char) : List Char → List (List Char)
  | [] => [[]]
  | c :: rest =>
    match splitOn sep rest with
    | [] => [[]]
    | h :: t => if c = sep then [] :: h :: t else (c :: h) :: t

/-- Value of an ASCII hex digit. -/
def hexVal (c : Char) : Option Nat :=
  if '0' ≤ c ∧ c ≤ '9' then some (c.toNat - 48)
  else if 'a' ≤ c ∧ c ≤ 'f' then some (c.toNat - 87)
  else if 'A' ≤ c ∧ c ≤ 'F' then some (c.toNat - 55)
  else none

/-- urllib.parse.unquote for ASCII data: a percent sign followed by two hex
    digits decodes to that byte; invalid escapes stay literal. -/
def unquote : List Char → List Char
  | [] => []
  | '%' :: c1 :: c2 :: rest =>
    match hexVal c1, hexVal c2 with
    | some h1, some h2 => Char.ofNat (16 * h1 + h2) :: unquote rest
    | _, _ => '%' :: unquote (c1 :: c2 :: rest)
  | c :: rest => c :: unquote rest

/-- The plus-to-space replacement parse_qsl applies before unquoting. -/
def plusToSpace (l : List Char) : List Char :=
  l.map (fun c => if c = '+' then ' ' else c)

/-- urllib.parse.parse_qsl with default arguments: split the query on
    ampersands, skip empty chunks, chunks without an equals sign and chunks
    with an empty value, and decode names and values. -/
def parseQsl (q : List Char) : List (List Char × List Char) :=
  (splitOn '&' q).foldr
    (fun nv acc =>
      if nv = [] then acc
      else
        match splitAtFirst '=' nv with
        | none => acc
        | some (n, v) =>
          if v = [] then acc
          else (unquote (plusToSpace n), unquote (plusToSpace v)) :: acc)
    []

/-- Python string comparison (code-point lexicographic), non-strict. -/
def listCharLe : List Char → List Char → Bool
  | [], _ => true
  | _ :: _, [] => false
  | a :: as, b :: bs =>
    if a.toNat < b.toNat then true
    else if a = b then listCharLe as bs
    else false

/-- Python tuple comparison on (name, value) query pairs, non-strict. -/
def pairLe (x y : List Char × List Char) : Bool :=
  if x.1 = y.1 then listCharLe x.2 y.2 else listCharLe x.1 y.1

/-- Python sorted() on query pairs: a stable sort under tuple comparison. -/
def sortPairs (l : List (List Char × List Char)) : List (List Char × List Char) :=
  l.insertionSort (fun a b => pairLe a b = true)

/-- Uppercase hex digit, as percent-encoding produces. -/
def hexDigitUpper (n : Nat) : Char :=
  if n < 10 then Char.ofNat (48 + n) else Char.ofNat (55 + n)

/-- Characters urllib never quotes: letters, digits, underscore, dot,
    minus, tilde. -/
def isAlwaysSafe (c : Char) : Bool :=
  c.isAlpha || c.isDigit || c = '_' || c = '.' || c = '-' || c = '~'

/-- urllib.parse.quote_plus with empty safe string, for ASCII data: safe
    characters kept, space becomes plus, the rest percent-encoded with
    uppercase hex. -/
def quotePlus (l : List Char) : List Char :=
  l.foldr
    (fun c acc =>
      (if isAlwaysSafe c then [c]
       else if c = ' ' then ['+']
       else ['%', hexDigitUpper (c.toNat / 16), hexDigitUpper (c.toNat % 16)]) ++ acc)
    []

/-- urllib.parse.urlencode with default quoting: quote each name and value
    and join with equals signs and ampersands. -/
def urlencodePairs (ps : List (List Char × List Char)) : List Char :=
  List.intercalate ['&'] (ps.map (fun p => quotePlus p.1 ++ '=' :: quotePlus p.2))

/-- str.rstrip with a slash argument: drop every trailing slash. -/
def rstripSlashes (l : List Char) : List Char :=
  (l.reverse.dropWhile (fun c => c = '/')).reverse

/-- The body of Scheduler._normalize_url on already-parsed components:
    rebuild scheme://netloc+path, append the sorted re-encoded query when the
    raw query is nonempty, then rstrip slashes and lowercase the whole
    string (scheduler.py lines 44-49). -/
def normalizeFromParts (p : UrlParts) : List Char :=
  let base := p.scheme ++ ':' :: '/' :: '/' :: (p.netloc ++ p.path)
  let full :=
    if p.query = [] then base
    else base ++ '?' :: urlencodePairs (sortPairs (parseQsl p.query))
  lowerL (rstripSlashes full)

/-- Scheduler._normalize_url (scheduler.py lines 42-49). -/
def normalizeUrl (url : String) : String :=
  String.mk (normalizeFromParts (urlparts url))

/-- Modelled from the spec: the normalization C3 describes, in which
    lowercasing applies exactly to the scheme, host and path, the trailing
    slash is dropped from that same portion, and the sorted re-encoded query
    keeps its case.  Used only as the refinement comparison point for C3. -/
def specC3Normalize (url : String) : String :=
  let p := urlparts url
  let base := lowerL (rstripSlashes (p.scheme ++ ':' :: '/' :: '/' :: (p.netloc ++ p.path)))
  let full :=
    if p.query = [] then base
    else base ++ '?' :: urlencodePairs (sortPairs (parseQsl p.query))
  String.mk full

/-! ### Scheduler (URL frontier) -/

/-- ergane.models.CrawlRequest: the fields the scheduler stores and
    round-trips through checkpoints. -/
structure CrawlRequest where
  url : String
  depth : Nat
  priority : Int
  metadata : List (String × String)
deriving DecidableEq, Repr

/-- One frontier heap entry: (negated priority, sequence counter, request). -/
abbrev Entry := Int × Nat × CrawlRequest

/-- _MAX_SEEN_URLS (scheduler.py line 25). -/
def maxSeenUrls : Nat := 100000

/-- _EVICT_BATCH: a tenth of the seen-set capacity (scheduler.py line 26). -/
def evictBatch : Nat := maxSeenUrls / 10

/-- Scheduler state: the heap list, the sequence counter and the
    insertion-ordered seen-set, plus the configured queue bound. -/
structure SchedState where
  maxQueueSize : Nat
  queue : List Entry
  counter : Nat
  seen : List String
deriving DecidableEq, Repr

/-- A freshly constructed Scheduler. -/
def initScheduler (maxQueueSize : Nat) : SchedState :=
  { maxQueueSize := maxQueueSize, queue := [], counter := 0, seen := [] }

/-- Scheduler.add (scheduler.py lines 51-97): reject duplicates, reject when
    the queue is full, evict the oldest tenth of the seen-set at capacity,
    then record the URL and push (negated priority, next counter, request). -/
def addReq (s : SchedState) (r : CrawlRequest) : SchedState × Bool :=
  let normalized := normalizeUrl r.url
  if normalized ∈ s.seen then (s, false)
  else if s.maxQueueSize ≤ s.queue.length then (s, false)
  else
    let seen1 := if maxSeenUrls ≤ s.seen.length then s.seen.drop evictBatch else s.seen
    ({ s with
        seen := seen1 ++ [normalized],
        counter := s.counter + 1,
        queue := s.queue ++ [(-r.priority, s.counter + 1, r)] }, true)

/-- Scheduler.add_many (scheduler.py lines 99-140): the per-item logic of add,
    folded over the batch under one lock; returns the count added. -/
def addManyReq (s : SchedState) : List CrawlRequest → SchedState × Nat
  | [] => (s, 0)
  | r :: rest =>
    let p := addReq s r
    let q := addManyReq p.1 rest
    (q.1, (if p.2 then 1 else 0) + q.2)

/-- The Python tuple order on heap entries, restricted to the key
    (negated priority, counter); with distinct counters the comparison never
    reaches the request itself. -/
def entryLe (e f : Entry) : Prop :=
  e.1 < f.1 ∨ (e.1 = f.1 ∧ e.2.1 ≤ f.2.1)

instance : DecidableRel entryLe := fun e f => by unfold entryLe; infer_instance

/-- heapq.heappop on the frontier list: remove a minimal entry under the
    tuple order (leftmost among key ties). -/
def popMin? : List Entry → Option (Entry × List Entry)
  | [] => none
  | e :: rest =>
    match popMin? rest with
    | none => some (e, [])
    | some (m, rem) => if entryLe e m then some (e, rest) else some (m, e :: rem)

/-- Repeatedly pop the minimum, with explicit fuel for structural recursion. -/
def drainFuel : Nat → List Entry → List Entry
  | 0, _ => []
  | n + 1, q =>
    match popMin? q with
    | none => []
    | some (m, rem) => m :: drainFuel n rem

/-- The sequence of entries successive Scheduler.get calls return. -/
def drainQueue (q : List Entry) : List Entry := drainFuel q.length q

/-- The sequence of requests successive Scheduler.get calls return. -/
def drainRequests (q : List Entry) : List CrawlRequest :=
  (drainQueue q).map (fun e => e.2.2)

/-- _request_to_dict (scheduler.py lines 12-19). -/
structure ReqDict where
  url : String
  depth : Nat
  priority : Int
  metadata : List (String × String)
deriving DecidableEq, Repr

def requestToDict (r : CrawlRequest) : ReqDict :=
  ⟨r.url, r.depth, r.priority, r.metadata⟩

/-- CrawlRequest(**r) applied to a serialized request dict. -/
def requestOfDict (d : ReqDict) : CrawlRequest :=
  ⟨d.url, d.depth, d.priority, d.metadata⟩

/-- The dictionary Scheduler.get_state returns. -/
structure SchedCheckpoint where
  seenUrls : List String
  queue : List (Int × Nat × ReqDict)
deriving DecidableEq, Repr

/-- Scheduler.get_state (scheduler.py lines 187-198). -/
def getState (s : SchedState) : SchedCheckpoint :=
  ⟨s.seen, s.queue.map (fun e => (e.1, e.2.1, requestToDict e.2.2))⟩

/-- Rebuilding a dict from a key list keeps the first occurrence of each key
    in insertion order. -/
def keysFromList : List String → List String
  | [] => []
  | k :: rest => k :: (keysFromList rest).filter (fun x => x ≠ k)

/-- The queue entries CrawlRequest(**r) rebuilds from a checkpoint. -/
def restoredQueue (cp : SchedCheckpoint) : List Entry :=
  cp.queue.map (fun e => (e.1, e.2.1, requestOfDict e.2.2))

/-- Scheduler.restore_state into a fresh scheduler (scheduler.py lines
    200-214): rebuild the seen dict and the queue, and bump the counter past
    the largest restored sequence number when the queue is nonempty (a fresh
    scheduler's counter is zero otherwise). -/
def restoreState (maxQueueSize : Nat) (cp : SchedCheckpoint) : SchedState :=
  { maxQueueSize := maxQueueSize,
    queue := restoredQueue cp,
    counter :=
      if restoredQueue cp = [] then 0
      else ((restoredQueue cp).map (fun e => e.2.1)).foldr max 0 + 1,
    seen := keysFromList cp.seenUrls }

/-! ### TokenBucket (fetcher.py lines 15-40) -/

/-- TokenBucket state; Python floats are modelled as rationals, and the
    monotonic clock as an explicit timestamp. -/
structure Bucket where
  rate : ℚ
  capacity : ℚ
  tokens : ℚ
  lastUpdate : ℚ
deriving DecidableEq, Repr

/-- TokenBucket.__init__: capacity defaults to the rate when the argument is
    absent or zero (Python `capacity or rate`); tokens start at capacity. -/
def mkTokenBucket (rate : ℚ) (capacity : Option ℚ) (t0 : ℚ) : Bucket :=
  let cap := match capacity with
    | some c => if c = 0 then rate else c
    | none => rate
  { rate := rate, capacity := cap, tokens := cap, lastUpdate := t0 }

/-- The refill at the top of TokenBucket.acquire: add elapsed*rate tokens,
    capped at capacity, and remember the refill time. -/
def refillAt (b : Bucket) (now : ℚ) : Bucket :=
  { b with tokens := min b.capacity (b.tokens + (now - b.lastUpdate) * b.rate),
           lastUpdate := now }

/-- Result of one pass through the acquire loop body. -/
inductive AcquireResult where
  | acquired
  | wait (d : ℚ)
deriving DecidableEq, Repr

/-- One iteration of the TokenBucket.acquire loop at clock value `now`:
    refill, then either consume a token and return, or compute the wait
    (1 - tokens)/rate and sleep outside the lock before retrying. -/
def acquireStep (b : Bucket) (now : ℚ) : Bucket × AcquireResult :=
  let b1 := refillAt b now
  if 1 ≤ b1.tokens then ({ b1 with tokens := b1.tokens - 1 }, .acquired)
  else (b1, .wait ((1 - b1.tokens) / b.rate))

/-- A sequence of acquire-loop iterations at the given clock values. -/
def runAcquires (b : Bucket) (times : List ℚ) : Bucket :=
  times.foldl (fun b t => (acquireStep b t).1) b

/-! ### Fetcher.fetch (fetcher.py lines 134-203) -/

/-- The fetcher configuration fields fetch reads (ergane.models.CrawlConfig). -/
structure FetchConfig where
  respectRobotsTxt : Bool
  cacheEnabled : Bool
  maxRetries : Nat
  retryBaseDelay : ℚ
deriving DecidableEq, Repr

/-- ergane.models.CrawlResponse, as fetch constructs it. -/
structure CrawlResponse where
  url : String
  statusCode : Nat
  content : String
  headers : List (String × String)
  error : Option String
  fromCache : Bool
  request : CrawlRequest
deriving DecidableEq, Repr

/-- A valid entry returned by ResponseCache.get. -/
structure CachedEntry where
  url : String
  statusCode : Nat
  content : String
  headers : List (String × String)
deriving DecidableEq, Repr

/-- Outcome of one network GET attempt inside the retry loop. -/
inductive AttemptOutcome where
  | success (finalUrl : String) (statusCode : Nat) (text : String)
      (headers : List (String × String))
  | timeout
  | transportError (msg : String)
deriving DecidableEq, Repr

/-- The environment one fetch call observes: the robots verdict for the URL,
    the response-cache lookup result, and the outcome of each GET attempt. -/
structure FetchEnv where
  robotsAllowed : Bool
  cached : Option CachedEntry
  attempts : Nat → AttemptOutcome

/-- Externally visible actions of one fetch call, in order. -/
inductive FetchEvent where
  | robotsCheck
  | cacheLookup
  | rateAcquire
  | networkGet (attempt : Nat)
  | sleep (d : ℚ)
  | cacheStore
deriving DecidableEq, Repr

/-- Fetcher.can_fetch (fetcher.py lines 124-132): true when enforcement is
    disabled, otherwise the robots verdict. -/
def canFetch (cfg : FetchConfig) (env : FetchEnv) : Bool :=
  !cfg.respectRobotsTxt || env.robotsAllowed

/-- An attempt outcome that raises httpx.TimeoutException or httpx.HTTPError. -/
def attemptFails : AttemptOutcome → Prop
  | .success _ _ _ _ => False
  | .timeout => True
  | .transportError _ => True

instance : DecidablePred attemptFails := fun o => by cases o <;> simp [attemptFails] <;> infer_instance

/-- The error string recorded for a failed attempt. -/
def failMsg : AttemptOutcome → String
  | .timeout => "Request timeout"
  | .transportError m => m
  | .success _ _ _ _ => ""

/-- The retry loop of fetch (fetcher.py lines 164-203) over the remaining
    attempt indices: acquire a token, perform the GET, return on success
    (storing 200 responses when the cache is on), otherwise record the error
    and back off retry_base_delay * 2^attempt when attempts remain. -/
def fetchLoop (cfg : FetchConfig) (env : FetchEnv) (req : CrawlRequest) :
    List Nat → Option String → CrawlResponse × List FetchEvent
  | [], lastError =>
    (⟨req.url, 0, "", [], lastError, false, req⟩, [])
  | a :: rest, _ =>
    match env.attempts a with
    | .success finalUrl status text headers =>
      let resp : CrawlResponse :=
        ⟨finalUrl, status, if status = 200 then text else "", headers, none, false, req⟩
      (resp, [.rateAcquire, .networkGet a] ++
        (if cfg.cacheEnabled ∧ status = 200 then [.cacheStore] else []))
    | .timeout =>
      let tail := fetchLoop cfg env req rest (some "Request timeout")
      (tail.1, [.rateAcquire, .networkGet a] ++
        (if a < cfg.maxRetries then [.sleep (cfg.retryBaseDelay * 2 ^ a)] else []) ++ tail.2)
    | .transportError m =>
      let tail := fetchLoop cfg env req rest (some m)
      (tail.1, [.rateAcquire, .networkGet a] ++
        (if a < cfg.maxRetries then [.sleep (cfg.retryBaseDelay * 2 ^ a)] else []) ++ tail.2)

/-- Fetcher.fetch (fetcher.py lines 134-203): robots check first, then the
    response-cache lookup when caching is enabled (a hit returns the cached
    entry tagged from_cache), then the retry loop.  Fallibility is modelled
    by the total return value: ordinary network and HTTP failures never
    escape as exceptions. -/
def fetchRun (cfg : FetchConfig) (env : FetchEnv) (req : CrawlRequest) :
    CrawlResponse × List FetchEvent :=
  if canFetch cfg env = false then
    (⟨req.url, 403, "", [], some "Blocked by robots.txt", false, req⟩, [.robotsCheck])
  else if cfg.cacheEnabled then
    match env.cached with
    | some c =>
      (⟨c.url, c.statusCode, c.content, c.headers, none, true, req⟩,
        [.robotsCheck, .cacheLookup])
    | none =>
      let tail := fetchLoop cfg env req (List.range (cfg.maxRetries + 1)) none
      (tail.1, [.robotsCheck, .cacheLookup] ++ tail.2)
  else
    let tail := fetchLoop cfg env req (List.range (cfg.maxRetries + 1)) none
    (tail.1, [.robotsCheck] ++ tail.2)

/-- The last-error accumulator of the retry loop over a list of failing
    attempt indices. -/
def lastErrAfter (env : FetchEnv) (l : List Nat) (e0 : Option String) : Option String :=
  l.foldl (fun _ a => some (failMsg (env.attempts a))) e0

/-- The events one failing pass of the retry loop emits for attempt `a`. -/
def retryEvents (cfg : FetchConfig) (a : Nat) : List FetchEvent :=
  [.rateAcquire, .networkGet a] ++
    (if a < cfg.maxRetries then [.sleep (cfg.retryBaseDelay * 2 ^ a)] else [])

/-- The event trace of the retry loop over failing attempt indices. -/
def retryTrace (cfg : FetchConfig) (l : List Nat) : List FetchEvent :=
  (l.map (retryEvents cfg)).flatten

/-! ### Page-budget claiming in the worker pool (engine.py lines 242-348) -/

/-- Ghost-refined shared counters of the crawl engine: pages is
    _pages_crawled; _active_tasks is split into the workers that hold a
    claimed slot and have not yet incremented pages (uncommitted) and those
    that already have (committed). -/
structure BudgetState where
  pages : Nat
  uncommitted : Nat
  committed : Nat
deriving DecidableEq, Repr

/-- The _active_tasks counter. -/
def BudgetState.active (s : BudgetState) : Nat := s.uncommitted + s.committed

/-- The lock-atomic counter transitions of Crawler._worker with budget M:
    claim a slot when pages + active < M (lines 255-258), increment
    pages_crawled after the fetch (lines 270-272), and release the slot in
    the finally block (lines 347-348), with or without having counted a page
    (a request-hook veto skips the fetch). -/
inductive BudgetStep (M : Nat) : BudgetState → BudgetState → Prop
  | claim (p u c : Nat) (h : p + (u + c) < M) :
      BudgetStep M ⟨p, u, c⟩ ⟨p, u + 1, c⟩
  | commit (p u c : Nat) :
      BudgetStep M ⟨p, u + 1, c⟩ ⟨p + 1, u, c + 1⟩
  | releaseCommitted (p u c : Nat) :
      BudgetStep M ⟨p, u, c + 1⟩ ⟨p, u, c⟩
  | releaseVetoed (p u c : Nat) :
      BudgetStep M ⟨p, u + 1, c⟩ ⟨p, u, c⟩

/-- The crawl-run counters start at zero. -/
def budgetInit : BudgetState := ⟨0, 0, 0⟩

/-! ### Pipeline.consolidate (pipeline.py lines 301-358) -/

/-- One output record: the url column plus the rest of the row. -/
structure Row where
  url : String
  payload : String
deriving DecidableEq, Repr

/-- The output formats of the pipeline. -/
inductive Fmt where
  | parquet
  | csv
  | excel
  | json
  | jsonl
  | sqlite
deriving DecidableEq, Repr

/-- DataFrame.unique(subset=[url], keep=last): one row per url, each equal to
    its last occurrence, ordered here by last occurrence (polars leaves the
    order unspecified; the claims are order-independent). -/
def dedupKeepLast (rows : List Row) : List Row :=
  rows.foldl (fun acc r => acc.filter (fun x => x.url ≠ r.url) ++ [r]) []

/-- The three ways consolidate can finish. -/
inductive ConsolidateResult where
  | noBatches
  | renamed (rows : List Row)
  | merged (rows : List Row)
deriving DecidableEq, Repr

/-- Pipeline.consolidate on the sorted batch-file contents: no batch files
    means nothing is written; a single batch file in a format other than json
    and sqlite is renamed as-is (lines 317-320); otherwise the batches are
    concatenated and deduplicated by url keeping the last occurrence
    (lines 326-339). -/
def consolidate (fmt : Fmt) (batches : List (List Row)) : ConsolidateResult :=
  if batches.isEmpty then .noBatches
  else if batches.length = 1 ∧ fmt ≠ .json ∧ fmt ≠ .sqlite then
    .renamed batches.flatten
  else
    .merged (dedupKeepLast batches.flatten)

/-- The rows of the final output file, when one is produced. -/
def outputRows : ConsolidateResult → Option (List Row)
  | .noBatches => none
  | .renamed rows => some rows
  | .merged rows => some rows

/-- How many records for a given url a row list holds. -/
def countUrl (rows : List Row) (u : String) : Nat :=
  (rows.filter (fun r => r.url = u)).length

/-- The latest write for a url among the concatenated batch rows. -/
def lastWrite (rows : List Row) (u : String) : Option Row :=
  (rows.filter (fun r => r.url = u)).getLast?

/-- A sequence of frontier mutations. -/
inductive SchedOp where
  | add (r : CrawlRequest)
  | addMany (rs : List CrawlRequest)

/-- Apply one frontier mutation. -/
def applyOp (s : SchedState) : SchedOp → SchedState
  | .add r => (addReq s r).1
  | .addMany rs => (addManyReq s rs).1

/-- Apply a sequence of frontier mutations. -/
def runOps (s : SchedState) : List SchedOp → SchedState
  | [] => s
  | op :: rest => runOps (applyOp s op) rest

/-! ### Helper lemmas -/

/-- Invariant carried by the budget machine: committed pages plus claimed but
    not yet counted slots never pass the budget. -/
def budgetInv (M : Nat) (s : BudgetState) : Prop := s.pages + s.uncommitted ≤ M

lemma budgetStep_inv {M : Nat} {s t : BudgetState} (h : BudgetStep M s t)
    (hs : budgetInv M s) : budgetInv M t := by
  cases h with
  | claim p u c hlt => simp only [budgetInv] at *; omega
  | commit p u c => simp only [budgetInv] at *; omega
  | releaseCommitted p u c => simp only [budgetInv] at *; omega
  | releaseVetoed p u c => simp only [budgetInv] at *; omega

lemma addReq_seen_le (s : SchedState) (r : CrawlRequest)
    (hs : s.seen.length ≤ maxSeenUrls) :
    ((addReq s r).1).seen.length ≤ maxSeenUrls := by
  unfold addReq
  by_cases h1 : normalizeUrl r.url ∈ s.seen
  · simpa [h1] using hs
  · by_cases h2 : s.maxQueueSize ≤ s.queue.length
    · simpa [h1, h2] using hs
    · by_cases h3 : maxSeenUrls ≤ s.seen.length
      · have hlen : s.seen.length = maxSeenUrls := le_antisymm hs h3
        simp only [h1, h2, h3, if_true, if_false, if_neg, if_pos]
        simp [hlen, maxSeenUrls, evictBatch]
      · simp only [h1, h2, h3, if_true, if_false, if_neg, if_pos]
        simp only [List.length_append, List.length_singleton]
        omega

lemma addManyReq_seen_le (rs : List CrawlRequest) : ∀ s : SchedState,
    s.seen.length ≤ maxSeenUrls → ((addManyReq s rs).1).seen.length ≤ maxSeenUrls := by
  induction rs with
  | nil => intro s hs; simpa [addManyReq] using hs
  | cons r rest ih => intro s hs; simpa [addManyReq] using ih _ (addReq_seen_le s r hs)

lemma runOps_seen_le (ops : List SchedOp) : ∀ s : SchedState,
    s.seen.length ≤ maxSeenUrls → (runOps s ops).seen.length ≤ maxSeenUrls := by
  induction ops with
  | nil => intro s hs; simpa [runOps] using hs
  | cons op rest ih =>
    intro s hs
    cases op with
    | add r => exact ih _ (addReq_seen_le s r hs)
    | addMany rs => exact ih _ (addManyReq_seen_le rs s hs)

lemma acquireStep_bounds (b : Bucket) (now : ℚ) (hr : 0 < b.rate)
    (h0 : 0 ≤ b.tokens) (hc : b.tokens ≤ b.capacity) (ht : b.lastUpdate ≤ now) :
    0 ≤ (acquireStep b now).1.tokens ∧
    (acquireStep b now).1.tokens ≤ (acquireStep b now).1.capacity ∧
    (acquireStep b now).1.capacity = b.capacity ∧
    (acquireStep b now).1.rate = b.rate ∧
    (acquireStep b now).1.lastUpdate = now := by
  have hcap : 0 ≤ b.capacity := le_trans h0 hc
  have hfill : 0 ≤ (now - b.lastUpdate) * b.rate :=
    mul_nonneg (by linarith) (le_of_lt hr)
  unfold acquireStep refillAt
  by_cases hge : (1 : ℚ) ≤ min b.capacity (b.tokens + (now - b.lastUpdate) * b.rate)
  · simp only [hge, if_pos]
    have : min b.capacity (b.tokens + (now - b.lastUpdate) * b.rate) ≤ b.capacity :=
      min_le_left _ _
    exact ⟨by linarith, by simp, by simp, by simp, by simp⟩
  · simp only [hge, if_neg, not_false_iff]
    have hmin : 0 ≤ min b.capacity (b.tokens + (now - b.lastUpdate) * b.rate) :=
      le_min hcap (by linarith)
    exact ⟨by simpa using hmin, by simpa using min_le_left _ _, by simp, by simp, by simp⟩

lemma runAcquires_bounds (times : List ℚ) : ∀ b : Bucket, 0 < b.rate →
    0 ≤ b.tokens → b.tokens ≤ b.capacity → List.Chain (· ≤ ·) b.lastUpdate times →
    0 ≤ (runAcquires b times).tokens ∧
    (runAcquires b times).tokens ≤ (runAcquires b times).capacity ∧
    (runAcquires b times).capacity = b.capacity := by
  induction times with
  | nil => intro b hr h0 hc _; exact ⟨h0, hc, rfl⟩
  | cons t rest ih =>
    intro b hr h0 hc hchain
    rw [List.chain_cons] at hchain
    have hstep := acquireStep_bounds b t hr h0 hc hchain.1
    have hrec := ih (acquireStep b t).1 (by rw [hstep.2.2.2.1]; exact hr)
      hstep.1 hstep.2.1 (by rw [hstep.2.2.2.2]; exact hchain.2)
    have hone : runAcquires b (t :: rest) = runAcquires (acquireStep b t).1 rest := rfl
    rw [hone]
    exact ⟨hrec.1, hrec.2.1, hrec.2.2.trans hstep.2.2.1⟩

lemma entryLe_refl (e : Entry) : entryLe e e := Or.inr ⟨rfl, le_refl _⟩

lemma entryLe_trans {a b c : Entry} (h1 : entryLe a b) (h2 : entryLe b c) :
    entryLe a c := by
  unfold entryLe at *
  omega

lemma entryLe_total (a b : Entry) : entryLe a b ∨ entryLe b a := by
  unfold entryLe
  omega

lemma popMin?_none {q : List Entry} : popMin? q = none ↔ q = [] := by
  cases q with
  | nil => simp [popMin?]
  | cons e rest =>
    simp only [popMin?]
    cases h : popMin? rest with
    | none => simp
    | some p =>
      obtain ⟨m, rem⟩ := p
      by_cases hle : entryLe e m <;> simp [hle]

lemma popMin?_perm : ∀ {q : List Entry} {m : Entry} {rem : List Entry},
    popMin? q = some (m, rem) → q.Perm (m :: rem) := by
  intro q
  induction q with
  | nil => intro m rem h; simp [popMin?] at h
  | cons e rest ih =>
    intro m rem h
    simp only [popMin?] at h
    cases h2 : popMin? rest with
    | none =>
      rw [h2] at h
      have hre : rest = [] := popMin?_none.mp h2
      subst hre
      simp only [Option.some.injEq, Prod.mk.injEq] at h
      obtain ⟨h3, h4⟩ := h
      subst h3
      subst h4
      exact List.Perm.refl _
    | some p =>
      obtain ⟨m2, rem2⟩ := p
      rw [h2] at h
      by_cases hle : entryLe e m2
      · simp only [hle, ite_true, Option.some.injEq, Prod.mk.injEq] at h
        obtain ⟨h3, h4⟩ := h
        subst h3
        subst h4
        exact List.Perm.refl _
      · simp only [hle, ite_false, Option.some.injEq, Prod.mk.injEq] at h
        obtain ⟨h3, h4⟩ := h
        subst h3
        subst h4
        exact ((ih h2).cons e).trans (List.Perm.swap m2 e rem2)

lemma popMin?_min : ∀ {q : List Entry} {m : Entry} {rem : List Entry},
    popMin? q = some (m, rem) → ∀ e ∈ q, entryLe m e := by
  intro q
  induction q with
  | nil => intro m rem h; simp [popMin?] at h
  | cons a rest ih =>
    intro m rem h e he
    simp only [popMin?] at h
    cases h2 : popMin? rest with
    | none =>
      rw [h2] at h
      have hre : rest = [] := popMin?_none.mp h2
      subst hre
      simp only [Option.some.injEq, Prod.mk.injEq] at h
      obtain ⟨h3, _⟩ := h
      subst h3
      simp only [List.mem_singleton] at he
      subst he
      exact entryLe_refl _
    | some p =>
      obtain ⟨m2, rem2⟩ := p
      rw [h2] at h
      by_cases hle : entryLe a m2
      · simp only [hle, ite_true, Option.some.injEq, Prod.mk.injEq] at h
        obtain ⟨h3, _⟩ := h
        subst h3
        rcases List.mem_cons.mp he with h5 | h5
        · subst h5; exact entryLe_refl _
        · exact entryLe_trans hle (ih h2 e h5)
      · simp only [hle, ite_false, Option.some.injEq, Prod.mk.injEq] at h
        obtain ⟨h3, _⟩ := h
        subst h3
        rcases List.mem_cons.mp he with h5 | h5
        · subst h5; exact (entryLe_total _ _).resolve_left hle
        · exact ih h2 e h5

lemma drainFuel_perm : ∀ (n : Nat) (q : List Entry), q.length ≤ n →
    (drainFuel n q).Perm q := by
  intro n
  induction n with
  | zero =>
    intro q hq
    rw [Nat.le_zero, List.length_eq_zero] at hq
    subst hq
    simp [drainFuel]
  | succ n ih =>
    intro q hq
    cases hp : popMin? q with
    | none =>
      have hqe : q = [] := popMin?_none.mp hp
      subst hqe
      simp [drainFuel, hp]
    | some p =>
      obtain ⟨m, rem⟩ := p
      have hperm := popMin?_perm hp
      have hlen : rem.length ≤ n := by
        have := hperm.length_eq
        simp only [List.length_cons] at this
        omega
      simp only [drainFuel, hp]
      exact ((ih rem hlen).cons m).trans hperm.symm

lemma drainFuel_sorted : ∀ (n : Nat) (q : List Entry), q.length ≤ n →
    (drainFuel n q).Pairwise entryLe := by
  intro n
  induction n with
  | zero => intro q _; simp [drainFuel]
  | succ n ih =>
    intro q hq
    cases hp : popMin? q with
    | none => simp [drainFuel, hp]
    | some p =>
      obtain ⟨m, rem⟩ := p
      have hperm := popMin?_perm hp
      have hlen : rem.length ≤ n := by
        have := hperm.length_eq
        simp only [List.length_cons] at this
        omega
      simp only [drainFuel, hp]
      refine List.Pairwise.cons ?_ (ih rem hlen)
      intro b hb
      have hbrem : b ∈ rem := (drainFuel_perm n rem hlen).mem_iff.mp hb
      exact popMin?_min hp b (hperm.mem_iff.mpr (List.mem_cons_of_mem m hbrem))

lemma keysFromList_nodup_id : ∀ l : List String, l.Nodup → keysFromList l = l := by
  intro l
  induction l with
  | nil => intro; rfl
  | cons k rest ih =>
    intro hnd
    rw [List.nodup_cons] at hnd
    unfold keysFromList
    rw [ih hnd.2]
    congr 1
    apply List.filter_eq_self.mpr
    intro x hx
    simp only [ne_eq, decide_eq_true_eq]
    exact fun hxk => hnd.1 (hxk ▸ hx)

lemma le_foldr_max : ∀ (l : List Nat) (x : Nat), x ∈ l → x ≤ l.foldr max 0 := by
  intro l
  induction l with
  | nil => intro x hx; simp at hx
  | cons a rest ih =>
    intro x hx
    rcases List.mem_cons.mp hx with h | h
    · subst h; exact le_max_left _ _
    · exact le_trans (ih x h) (le_max_right _ _)

lemma fetchLoop_all_fail (cfg : FetchConfig) (env : FetchEnv) (req : CrawlRequest) :
    ∀ (l : List Nat) (e0 : Option String), (∀ a ∈ l, attemptFails (env.attempts a)) →
    fetchLoop cfg env req l e0 =
      (⟨req.url, 0, "", [], lastErrAfter env l e0, false, req⟩, retryTrace cfg l) := by
  intro l
  induction l with
  | nil => intro e0 _; simp [fetchLoop, lastErrAfter, retryTrace]
  | cons a rest ih =>
    intro e0 hfail
    have hfa : attemptFails (env.attempts a) := hfail a (List.mem_cons_self a rest)
    have hrest : ∀ b ∈ rest, attemptFails (env.attempts b) :=
      fun b hb => hfail b (List.mem_cons_of_mem a hb)
    cases hcase : env.attempts a with
    | success u st tx hd =>
      rw [hcase] at hfa
      exact absurd hfa (by simp [attemptFails])
    | timeout =>
      simp only [fetchLoop, hcase, ih (some "Request timeout") hrest]
      simp [lastErrAfter, retryTrace, retryEvents, hcase, failMsg, List.append_assoc]
    | transportError msg =>
      simp only [fetchLoop, hcase, ih (some msg) hrest]
      simp [lastErrAfter, retryTrace, retryEvents, hcase, failMsg, List.append_assoc]

lemma lastErrAfter_range (env : FetchEnv) (n : Nat) (e0 : Option String) :
    lastErrAfter env (List.range (n + 1)) e0 = some (failMsg (env.attempts n)) := by
  unfold lastErrAfter
  rw [List.range_succ, List.foldl_append]
  rfl

lemma retryTrace_networkGet_count (cfg : FetchConfig) :
    ∀ l : List Nat,
      (retryTrace cfg l).countP
        (fun e => match e with | FetchEvent.networkGet _ => true | _ => false) =
      l.length := by
  intro l
  induction l with
  | nil => rfl
  | cons a rest ih =>
    have hone : (retryEvents cfg a).countP
        (fun e => match e with | FetchEvent.networkGet _ => true | _ => false) = 1 := by
      unfold retryEvents
      by_cases h : a < cfg.maxRetries <;> simp [h, List.countP_cons]
    unfold retryTrace at *
    simp only [List.map_cons, List.flatten_cons, List.countP_append, hone, ih,
      List.length_cons]
    omega

lemma filterStep_eq (acc : List Row) (r : Row) (u : String) (h : r.url = u) :
    ((acc.filter (fun x => x.url ≠ r.url)) ++ [r]).filter (fun x => x.url = u) = [r] := by
  rw [List.filter_append]
  have h1 : (acc.filter (fun x => x.url ≠ r.url)).filter (fun x => x.url = u) = [] := by
    rw [List.filter_filter]
    apply List.filter_eq_nil_iff.mpr
    intro x hx
    simp only [Bool.and_eq_true, decide_eq_true_eq, ne_eq, not_and, not_not]
    intro hxu
    rw [hxu, h]
  rw [h1]
  simp [h]

lemma filterStep_ne (acc : List Row) (r : Row) (u : String) (h : r.url ≠ u) :
    ((acc.filter (fun x => x.url ≠ r.url)) ++ [r]).filter (fun x => x.url = u) =
      acc.filter (fun x => x.url = u) := by
  rw [List.filter_append, List.filter_filter]
  have h2 : acc.filter (fun x => decide (x.url = u) && decide (x.url ≠ r.url)) =
      acc.filter (fun x => x.url = u) := by
    apply List.filter_congr
    intro x _
    by_cases hxu : x.url = u
    · have hxr : x.url ≠ r.url := fun hc => h (hc ▸ hxu)
      simp [hxu, hxr]
      exact fun hc => h hc.symm
    · simp [hxu]
  rw [h2]
  simp [h]

lemma foldl_step_filter : ∀ (rows acc : List Row) (u : String),
    (List.foldl (fun acc r => acc.filter (fun x => x.url ≠ r.url) ++ [r]) acc rows).filter
        (fun x => x.url = u) =
      match (rows.filter (fun x => x.url = u)).getLast? with
      | some w => [w]
      | none => acc.filter (fun x => x.url = u) := by
  intro rows
  induction rows with
  | nil => intro acc u; simp
  | cons r rest ih =>
    intro acc u
    rw [List.foldl_cons, ih _ u]
    by_cases hru : r.url = u
    · have hcons : (r :: rest).filter (fun x => x.url = u) =
          r :: rest.filter (fun x => x.url = u) := by simp [hru]
      rw [hcons]
      cases hrest : rest.filter (fun x => x.url = u) with
      | nil =>
        simp only [List.getLast?_nil, List.getLast?_singleton]
        exact filterStep_eq acc r u hru
      | cons y ys =>
        rw [List.getLast?_cons_cons]
        cases hg : (y :: ys).getLast? with
        | none => simp at hg
        | some w => rfl
    · have hcons : (r :: rest).filter (fun x => x.url = u) =
          rest.filter (fun x => x.url = u) := by simp [hru]
      rw [hcons]
      cases hg : (rest.filter (fun x => x.url = u)).getLast? with
      | some w => rfl
      | none => exact filterStep_ne acc r u hru

lemma dedupKeepLast_filter (rows : List Row) (u : String) :
    (dedupKeepLast rows).filter (fun x => x.url = u) =
      match lastWrite rows u with
      | some w => [w]
      | none => [] := by
  unfold dedupKeepLast lastWrite
  rw [foldl_step_filter rows [] u]
  cases (rows.filter (fun x => x.url = u)).getLast? <;> rfl

lemma charToNat_ofNat {n : Nat} (h : n.isValidChar) : (Char.ofNat n).toNat = n := by
  simp [Char.ofNat, h, Char.ofNatAux, Char.toNat, UInt32.toNat, BitVec.toNat_ofNatLt]

lemma charToNat_inj {a b : Char} (h : a.toNat = b.toNat) : a = b := by
  have ha := Char.ofNat_toNat a
  rw [h] at ha
  rw [← ha, Char.ofNat_toNat]

lemma listCharLe_total : ∀ a b : List Char,
    listCharLe a b = true ∨ listCharLe b a = true := by
  intro a
  induction a with
  | nil => intro b; left; rfl
  | cons x xs ih =>
    intro b
    cases b with
    | nil => right; rfl
    | cons y ys =>
      by_cases h1 : x.toNat < y.toNat
      · left; simp [listCharLe, h1]
      · by_cases h2 : y.toNat < x.toNat
        · right; simp [listCharLe, h2]
        · have hxy : x = y := charToNat_inj (by omega)
          subst hxy
          rcases ih ys with h | h
          · left; simp [listCharLe, h]
          · right; simp [listCharLe, h]

lemma listCharLe_trans : ∀ a b c : List Char, listCharLe a b = true →
    listCharLe b c = true → listCharLe a c = true := by
  intro a
  induction a with
  | nil => intro b c _ _; rfl
  | cons x xs ih =>
    intro b c hab hbc
    cases b with
    | nil => simp [listCharLe] at hab
    | cons y ys =>
      cases c with
      | nil => simp [listCharLe] at hbc
      | cons z zs =>
        simp only [listCharLe] at hab hbc ⊢
        by_cases h1 : x.toNat < y.toNat
        · by_cases h2 : y.toNat < z.toNat
          · rw [if_pos (by omega : x.toNat < z.toNat)]
          · rw [if_neg h2] at hbc
            by_cases h3 : y = z
            · subst h3
              rw [if_pos h1]
            · rw [if_neg h3] at hbc
              exact absurd hbc (by simp)
        · rw [if_neg h1] at hab
          by_cases h4 : x = y
          · subst h4
            rw [if_pos rfl] at hab
            by_cases h2 : x.toNat < z.toNat
            · rw [if_pos h2]
            · rw [if_neg h2] at hbc ⊢
              by_cases h3 : x = z
              · rw [if_pos h3] at hbc ⊢
                exact ih ys zs hab hbc
              · rw [if_neg h3] at hbc
                exact absurd hbc (by simp)
          · rw [if_neg h4] at hab
            exact absurd hab (by simp)

lemma listCharLe_antisymm : ∀ a b : List Char, listCharLe a b = true →
    listCharLe b a = true → a = b := by
  intro a
  induction a with
  | nil =>
    intro b _ hba
    cases b with
    | nil => rfl
    | cons y ys => simp [listCharLe] at hba
  | cons x xs ih =>
    intro b hab hba
    cases b with
    | nil => simp [listCharLe] at hab
    | cons y ys =>
      simp only [listCharLe] at hab hba
      by_cases h1 : x.toNat < y.toNat
      · exfalso
        by_cases h2 : y.toNat < x.toNat
        · omega
        · rw [if_neg h2] at hba
          by_cases h3 : y = x
          · rw [h3] at h1; omega
          · rw [if_neg h3] at hba
            simp at hba
      · rw [if_neg h1] at hab
        by_cases h4 : x = y
        · subst h4
          rw [if_pos rfl] at hab
          rw [if_neg h1, if_pos rfl] at hba
          exact congrArg (List.cons x) (ih ys hab hba)
        · rw [if_neg h4] at hab
          simp at hab

lemma pairLe_total (x y : List Char × List Char) :
    pairLe x y = true ∨ pairLe y x = true := by
  unfold pairLe
  by_cases h : x.1 = y.1
  · rw [if_pos h, if_pos h.symm]
    exact listCharLe_total x.2 y.2
  · rw [if_neg h, if_neg (fun hc => h hc.symm)]
    exact listCharLe_total x.1 y.1

lemma pairLe_trans (x y z : List Char × List Char) (hxy : pairLe x y = true)
    (hyz : pairLe y z = true) : pairLe x z = true := by
  unfold pairLe at *
  by_cases h1 : x.1 = y.1
  · rw [if_pos h1] at hxy
    by_cases h2 : y.1 = z.1
    · rw [if_pos h2] at hyz
      rw [if_pos (h1.trans h2)]
      exact listCharLe_trans _ _ _ hxy hyz
    · rw [if_neg h2] at hyz
      rw [if_neg (by rw [h1]; exact h2), h1]
      exact hyz
  · rw [if_neg h1] at hxy
    by_cases h2 : y.1 = z.1
    · rw [if_neg (by rw [← h2]; exact h1), ← h2]
      exact hxy
    · rw [if_neg h2] at hyz
      by_cases h3 : x.1 = z.1
      · exact absurd (listCharLe_antisymm x.1 y.1 hxy (by rw [h3]; exact hyz)) h1
      · rw [if_neg h3]
        exact listCharLe_trans _ _ _ hxy hyz

lemma pairLe_antisymm (x y : List Char × List Char) (hxy : pairLe x y = true)
    (hyx : pairLe y x = true) : x = y := by
  obtain ⟨x1, x2⟩ := x
  obtain ⟨y1, y2⟩ := y
  unfold pairLe at *
  simp only at hxy hyx
  by_cases h : x1 = y1
  · rw [if_pos h] at hxy
    rw [if_pos h.symm] at hyx
    subst h
    rw [listCharLe_antisymm _ _ hxy hyx]
  · rw [if_neg h] at hxy
    rw [if_neg (fun hc => h hc.symm)] at hyx
    exact absurd (listCharLe_antisymm _ _ hxy hyx) h

lemma sortPairs_perm_congr {l1 l2 : List (List Char × List Char)}
    (h : l1.Perm l2) : sortPairs l1 = sortPairs l2 := by
  unfold sortPairs
  haveI ht : IsTotal (List Char × List Char) (fun a b => pairLe a b = true) :=
    ⟨fun a b => pairLe_total a b⟩
  haveI htr : IsTrans (List Char × List Char) (fun a b => pairLe a b = true) :=
    ⟨fun a b c => pairLe_trans a b c⟩
  haveI has : IsAntisymm (List Char × List Char) (fun a b => pairLe a b = true) :=
    ⟨fun a b => pairLe_antisymm a b⟩
  exact List.eq_of_perm_of_sorted
    ((List.perm_insertionSort _ l1).trans (h.trans (List.perm_insertionSort _ l2).symm))
    (List.sorted_insertionSort _ l1)
    (List.sorted_insertionSort _ l2)

lemma lowerChar_slash_iff (c : Char) : lowerChar c = '/' ↔ c = '/' := by
  unfold lowerChar
  by_cases h : 65 ≤ c.toNat ∧ c.toNat ≤ 90
  · rw [if_pos h]
    have hslash : ('/').toNat = 47 := rfl
    constructor
    · intro hc
      exfalso
      have hv : (c.toNat + 32).isValidChar := Or.inl (by omega)
      have ht := charToNat_ofNat hv
      rw [hc] at ht
      omega
    · intro hc
      exfalso
      rw [hc] at h
      omega
  · rw [if_neg h]

lemma rstrip_lower_comm (l : List Char) :
    rstripSlashes (lowerL l) = lowerL (rstripSlashes l) := by
  unfold rstripSlashes lowerL
  have hpred : ((fun c => decide (c = '/')) ∘ lowerChar) =
      (fun c => decide (c = '/')) := by
    funext c
    simp only [Function.comp_apply, decide_eq_decide]
    exact lowerChar_slash_iff c
  rw [← List.map_reverse, List.dropWhile_map, hpred, ← List.map_reverse]

lemma rstrip_append_congr (a : List Char) {b1 b2 : List Char}
    (h : rstripSlashes b1 = rstripSlashes b2) :
    rstripSlashes (a ++ b1) = rstripSlashes (a ++ b2) := by
  unfold rstripSlashes at *
  have h2 : b1.reverse.dropWhile (fun c => c = '/') =
      b2.reverse.dropWhile (fun c => c = '/') := by
    have h3 := congrArg List.reverse h
    simpa using h3
  rw [List.reverse_append, List.reverse_append, List.dropWhile_append,
    List.dropWhile_append, h2]

/-! ### Claim theorems -/

/-- C1: for any page budget M, every state the engine counters can reach from
    the start of a crawl run — under any interleaving of any number of
    workers claiming slots, counting fetched pages and releasing slots —
    keeps pages_crawled at or below M: the claim check compares
    pages_crawled + active_tasks against max_pages under the single counter
    lock, so racing workers cannot overshoot the budget. -/
theorem budget_never_exceeded (M : Nat) (s : BudgetState)
    (h : Relation.ReflTransGen (BudgetStep M) budgetInit s) : s.pages ≤ M := by
  have hinv : budgetInv M s := by
    induction h with
    | refl => simp [budgetInv, budgetInit]
    | tail _ step ih => exact budgetStep_inv step ih
  exact le_trans (Nat.le_add_right _ _) hinv

/-- Witness for C1: with budget one, a worker claims the slot, counts the
    page and releases; the reached state has pages_crawled equal to one. -/
theorem budget_never_exceeded_witness :
    Relation.ReflTransGen (BudgetStep 1) budgetInit ⟨1, 0, 0⟩ ∧
      BudgetState.pages ⟨1, 0, 0⟩ ≤ 1 := by
  have hchain : Relation.ReflTransGen (BudgetStep 1) budgetInit ⟨1, 0, 0⟩ :=
    Relation.ReflTransGen.head (BudgetStep.claim 0 0 0 (by decide))
      (Relation.ReflTransGen.head (BudgetStep.commit 0 0 0)
        (Relation.ReflTransGen.head (BudgetStep.releaseCommitted 1 0 0)
          Relation.ReflTransGen.refl))
  exact ⟨hchain, budget_never_exceeded 1 ⟨1, 0, 0⟩ hchain⟩

/-- C10: when Scheduler.add returns False the state is unchanged — queue,
    counter and seen-set are exactly as before — and any URL whose normalized
    form is absent from the seen-set is added successfully whenever the queue
    has room, so a URL rejected for a full queue can succeed later. -/
theorem scheduler_add_false_unchanged (s : SchedState) (r : CrawlRequest)
    (s2 : SchedState) (h : addReq s r = (s2, false)) :
    s2 = s ∧
      ∀ t : SchedState, normalizeUrl r.url ∉ t.seen →
        t.queue.length < t.maxQueueSize → (addReq t r).2 = true := by
  constructor
  · unfold addReq at h
    by_cases h1 : normalizeUrl r.url ∈ s.seen
    · simp only [h1, if_pos] at h
      exact (Prod.mk.injEq _ _ _ _ ▸ h).1.symm
    · by_cases h2 : s.maxQueueSize ≤ s.queue.length
      · simp only [h1, h2, if_pos, if_neg, not_false_iff] at h
        exact (Prod.mk.injEq _ _ _ _ ▸ h).1.symm
      · simp [h1, h2] at h
  · intro t ht hq
    unfold addReq
    simp [ht, Nat.not_le.mpr hq]

/-- Witness for C10: a scheduler with queue bound zero rejects an add and is
    left unchanged; the same URL succeeds on a scheduler with room. -/
theorem scheduler_add_false_unchanged_witness :
    addReq ⟨0, [], 0, []⟩ ⟨"https://ex.com/a", 0, 0, []⟩ = (⟨0, [], 0, []⟩, false) ∧
      (⟨0, [], 0, []⟩ : SchedState) = ⟨0, [], 0, []⟩ ∧
      (∀ t : SchedState, normalizeUrl "https://ex.com/a" ∉ t.seen →
        t.queue.length < t.maxQueueSize →
        (addReq t ⟨"https://ex.com/a", 0, 0, []⟩).2 = true) := by
  have h : addReq ⟨0, [], 0, []⟩ ⟨"https://ex.com/a", 0, 0, []⟩ =
      (⟨0, [], 0, []⟩, false) := by decide
  exact ⟨h, scheduler_add_false_unchanged ⟨0, [], 0, []⟩ ⟨"https://ex.com/a", 0, 0, []⟩
    ⟨0, [], 0, []⟩ h⟩

/-- C7: after any sequence of add and add_many operations from a fresh
    scheduler the seen-set holds at most 100000 normalized URLs; and an
    insertion performed while the set is at capacity first evicts the oldest
    10000 entries in one batch, then records the new URL. -/
theorem seen_set_bounded (ops : List SchedOp) (m : Nat) (s : SchedState)
    (r : CrawlRequest) (hlen : s.seen.length = 100000)
    (hmem : normalizeUrl r.url ∉ s.seen)
    (hq : s.queue.length < s.maxQueueSize) :
    (runOps (initScheduler m) ops).seen.length ≤ 100000 ∧
      addReq s r =
        ({ s with seen := s.seen.drop 10000 ++ [normalizeUrl r.url],
                  counter := s.counter + 1,
                  queue := s.queue ++ [(-r.priority, s.counter + 1, r)] }, true) := by
  constructor
  · exact runOps_seen_le ops (initScheduler m) (by simp [initScheduler, maxSeenUrls])
  · unfold addReq
    have h3 : maxSeenUrls ≤ s.seen.length := by rw [hlen]; norm_num [maxSeenUrls]
    have hevict : evictBatch = 10000 := by norm_num [evictBatch, maxSeenUrls]
    simp [hmem, Nat.not_le.mpr hq, h3, hevict]

/-- Witness for C7: a seen-set of exactly 100000 entries forces the batch
    eviction on the next insertion. -/
theorem seen_set_bounded_witness :
    (List.replicate 100000 "x").length = 100000 ∧
      normalizeUrl "http://a.com/b" ∉ List.replicate 100000 "x" ∧
      (0 : Nat) < 10000 ∧
      ((runOps (initScheduler 10000) []).seen.length ≤ 100000 ∧
        addReq ⟨10000, [], 0, List.replicate 100000 "x"⟩ ⟨"http://a.com/b", 0, 0, []⟩ =
          ({ maxQueueSize := 10000,
             queue := [(0, 1, ⟨"http://a.com/b", 0, 0, []⟩)],
             counter := 1,
             seen := (List.replicate 100000 "x").drop 10000 ++
               [normalizeUrl "http://a.com/b"] }, true)) := by
  have h1 : (List.replicate 100000 "x").length = 100000 :=
    List.length_replicate 100000 "x"
  have h2 : normalizeUrl "http://a.com/b" ∉ List.replicate 100000 "x" := by
    simp only [List.mem_replicate]
    intro hc
    exact absurd hc.2 (by decide)
  have h3 : (0 : Nat) < 10000 := by decide
  have hmain := seen_set_bounded [] 10000 ⟨10000, [], 0, List.replicate 100000 "x"⟩
    ⟨"http://a.com/b", 0, 0, []⟩ h1 h2 h3
  exact ⟨h1, h2, h3, hmain.1, hmain.2⟩

/-- C8: a token bucket built with positive rate (capacity defaulting to the
    rate) keeps its token count inside the closed interval from zero to
    capacity across any sequence of acquire-loop iterations at nondecreasing
    clock values; one iteration consumes a token exactly when the refilled
    count reaches one, and otherwise reports the wait (1 - tokens)/rate
    computed from the refilled count. -/
theorem token_bucket_invariant (rate : ℚ) (cap : Option ℚ) (t0 : ℚ)
    (times : List ℚ) (hr : 0 < rate)
    (hcap : 0 < (mkTokenBucket rate cap t0).capacity)
    (hchain : List.Chain (· ≤ ·) t0 times) :
    (0 ≤ (runAcquires (mkTokenBucket rate cap t0) times).tokens ∧
      (runAcquires (mkTokenBucket rate cap t0) times).tokens ≤
        (mkTokenBucket rate cap t0).capacity) ∧
    (∀ b : Bucket, ∀ now : ℚ, 1 ≤ (refillAt b now).tokens →
      acquireStep b now =
        ({ refillAt b now with tokens := (refillAt b now).tokens - 1 }, .acquired)) ∧
    (∀ b : Bucket, ∀ now : ℚ, (refillAt b now).tokens < 1 →
      acquireStep b now =
        (refillAt b now, .wait ((1 - (refillAt b now).tokens) / b.rate))) := by
  refine ⟨?_, ?_, ?_⟩
  · have hrrate : (mkTokenBucket rate cap t0).rate = rate := rfl
    have htok : (mkTokenBucket rate cap t0).tokens = (mkTokenBucket rate cap t0).capacity :=
      rfl
    have hlast : (mkTokenBucket rate cap t0).lastUpdate = t0 := rfl
    have hb := runAcquires_bounds times (mkTokenBucket rate cap t0)
      (by rw [hrrate]; exact hr) (by rw [htok]; exact le_of_lt hcap)
      (le_of_eq htok) (by rw [hlast]; exact hchain)
    exact ⟨hb.1, hb.2.2 ▸ hb.2.1⟩
  · intro b now hge
    unfold acquireStep
    simp only [hge, if_pos]
  · intro b now hlt
    unfold acquireStep
    simp only [not_le.mpr hlt, if_neg, not_false_iff, if_false]

/-- Witness for C8: a unit-rate bucket stepped at clock values zero and one. -/
theorem token_bucket_invariant_witness :
    (0 : ℚ) < 1 ∧ (0 : ℚ) < (mkTokenBucket 1 none 0).capacity ∧
      List.Chain (· ≤ ·) (0 : ℚ) [0, 1] ∧
      (0 ≤ (runAcquires (mkTokenBucket 1 none 0) [0, 1]).tokens ∧
        (runAcquires (mkTokenBucket 1 none 0) [0, 1]).tokens ≤
          (mkTokenBucket 1 none 0).capacity) := by
  have h1 : (0 : ℚ) < 1 := by norm_num
  have h2 : (0 : ℚ) < (mkTokenBucket 1 none 0).capacity := by
    norm_num [mkTokenBucket]
  have h3 : List.Chain (· ≤ ·) (0 : ℚ) [0, 1] := by
    refine List.Chain.cons le_rfl (List.Chain.cons (by norm_num) List.Chain.nil)
  exact ⟨h1, h2, h3, (token_bucket_invariant 1 none 0 [0, 1] h1 h2 h3).1⟩

/-- C2: draining any frontier queue whose entries carry the negated request
    priority and pairwise-distinct counters returns a permutation of the
    queue in strictly descending priority order with the insertion sequence
    breaking ties (FIFO); in particular adds with priorities [0, 10, 5]
    drain as [10, 5, 0], and three equal-priority adds drain in insertion
    order. -/
theorem scheduler_priority_order (q : List Entry)
    (hwf : ∀ e ∈ q, e.1 = -e.2.2.priority)
    (hnd : (q.map (fun e => e.2.1)).Nodup) :
    (drainQueue q).Perm q ∧
    (drainQueue q).Pairwise (fun a b =>
      b.2.2.priority < a.2.2.priority ∨
        (a.2.2.priority = b.2.2.priority ∧ a.2.1 < b.2.1)) ∧
    drainRequests ((addReq (addReq (addReq (initScheduler 10000)
        ⟨"https://example.com/low", 0, 0, []⟩).1
        ⟨"https://example.com/high", 0, 10, []⟩).1
        ⟨"https://example.com/medium", 0, 5, []⟩).1).queue =
      [⟨"https://example.com/high", 0, 10, []⟩,
       ⟨"https://example.com/medium", 0, 5, []⟩,
       ⟨"https://example.com/low", 0, 0, []⟩] ∧
    drainRequests ((addReq (addReq (addReq (initScheduler 10000)
        ⟨"https://example.com/1", 0, 0, []⟩).1
        ⟨"https://example.com/2", 0, 0, []⟩).1
        ⟨"https://example.com/3", 0, 0, []⟩).1).queue =
      [⟨"https://example.com/1", 0, 0, []⟩,
       ⟨"https://example.com/2", 0, 0, []⟩,
       ⟨"https://example.com/3", 0, 0, []⟩] := by
  have hperm : (drainQueue q).Perm q := drainFuel_perm q.length q (le_refl _)
  have hsorted : (drainQueue q).Pairwise entryLe := drainFuel_sorted q.length q (le_refl _)
  refine ⟨hperm, ?_, by decide, by decide⟩
  have hndd : ((drainQueue q).map (fun e => e.2.1)).Nodup :=
    (List.Perm.nodup_iff (hperm.map (fun e => e.2.1))).mpr hnd
  have hpw2 : (drainQueue q).Pairwise (fun a b => a.2.1 ≠ b.2.1) :=
    List.pairwise_map.mp hndd
  refine (hsorted.and hpw2).imp_of_mem ?_
  intro a b ha hb hab
  have hwa := hwf a (hperm.mem_iff.mp ha)
  have hwb := hwf b (hperm.mem_iff.mp hb)
  obtain ⟨hle, hne⟩ := hab
  unfold entryLe at hle
  rw [hwa, hwb] at hle
  omega

/-- Witness for C2: the three-entry queue produced by the priority
    [0, 10, 5] example. -/
theorem scheduler_priority_order_witness :
    (∀ e ∈ ([(0, 1, ⟨"https://example.com/low", 0, 0, []⟩),
             (-10, 2, ⟨"https://example.com/high", 0, 10, []⟩),
             (-5, 3, ⟨"https://example.com/medium", 0, 5, []⟩)] : List Entry),
        e.1 = -e.2.2.priority) ∧
    (([(0, 1, ⟨"https://example.com/low", 0, 0, []⟩),
       (-10, 2, ⟨"https://example.com/high", 0, 10, []⟩),
       (-5, 3, ⟨"https://example.com/medium", 0, 5, []⟩)] : List Entry).map
        (fun e => e.2.1)).Nodup ∧
    (drainQueue [(0, 1, ⟨"https://example.com/low", 0, 0, []⟩),
                 (-10, 2, ⟨"https://example.com/high", 0, 10, []⟩),
                 (-5, 3, ⟨"https://example.com/medium", 0, 5, []⟩)]).Perm
      [(0, 1, ⟨"https://example.com/low", 0, 0, []⟩),
       (-10, 2, ⟨"https://example.com/high", 0, 10, []⟩),
       (-5, 3, ⟨"https://example.com/medium", 0, 5, []⟩)] := by
  have h1 : ∀ e ∈ ([(0, 1, ⟨"https://example.com/low", 0, 0, []⟩),
             (-10, 2, ⟨"https://example.com/high", 0, 10, []⟩),
             (-5, 3, ⟨"https://example.com/medium", 0, 5, []⟩)] : List Entry),
      e.1 = -e.2.2.priority := by decide
  have h2 : (([(0, 1, ⟨"https://example.com/low", 0, 0, []⟩),
       (-10, 2, ⟨"https://example.com/high", 0, 10, []⟩),
       (-5, 3, ⟨"https://example.com/medium", 0, 5, []⟩)] : List Entry).map
        (fun e => e.2.1)).Nodup := by decide
  exact ⟨h1, h2, (scheduler_priority_order _ h1 h2).1⟩

/-- C6: exporting scheduler state and restoring it into a fresh scheduler is
    lossless — the seen-set and the pending queue (priority, sequence and
    request fields) come back exactly, draining the restored queue yields the
    same request sequence — and after restoring a nonempty queue the sequence
    counter strictly exceeds every restored sequence number. -/
theorem scheduler_checkpoint_roundtrip (s : SchedState) (m : Nat)
    (hnd : s.seen.Nodup) :
    (restoreState m (getState s)).seen = s.seen ∧
    (restoreState m (getState s)).queue = s.queue ∧
    drainRequests (restoreState m (getState s)).queue = drainRequests s.queue ∧
    (s.queue ≠ [] → ∀ e ∈ (restoreState m (getState s)).queue,
      e.2.1 < (restoreState m (getState s)).counter) := by
  have hq0 : restoredQueue (getState s) = s.queue := by
    unfold restoredQueue getState
    simp only [List.map_map]
    have hcomp : ((fun e : Int × Nat × ReqDict => (e.1, e.2.1, requestOfDict e.2.2)) ∘
        (fun e : Entry => (e.1, e.2.1, requestToDict e.2.2))) = id := by
      funext e
      obtain ⟨p, c, r⟩ := e
      cases r
      rfl
    rw [hcomp, List.map_id]
  have hqueue : (restoreState m (getState s)).queue = s.queue := hq0
  refine ⟨keysFromList_nodup_id s.seen hnd, hqueue, by rw [hqueue], ?_⟩
  intro hne e he
  rw [hqueue] at he
  have hcnt : (restoreState m (getState s)).counter =
      (s.queue.map (fun e => e.2.1)).foldr max 0 + 1 := by
    show (if restoredQueue (getState s) = [] then 0
      else ((restoredQueue (getState s)).map (fun e => e.2.1)).foldr max 0 + 1) = _
    rw [hq0, if_neg hne]
  rw [hcnt]
  have : e.2.1 ∈ s.queue.map (fun e => e.2.1) := List.mem_map_of_mem _ he
  have := le_foldr_max _ _ this
  omega

/-- C4: when robots allow the URL and the cache misses, a fetch whose every
    GET attempt raises a timeout or transport error makes exactly
    max_retries + 1 attempts, each preceded by a rate-limiter acquire, sleeps
    retry_base_delay * 2^attempt after every failed attempt except the last,
    and returns (without raising — fetch is a total function here) a response
    with status_code 0 carrying the last attempt's error message. -/
theorem fetcher_retry_exhaustion (cfg : FetchConfig) (env : FetchEnv)
    (req : CrawlRequest) (hrobots : canFetch cfg env = true)
    (hcache : cfg.cacheEnabled = true → env.cached = none)
    (hfail : ∀ i, i ≤ cfg.maxRetries → attemptFails (env.attempts i)) :
    fetchRun cfg env req =
      (⟨req.url, 0, "", [], some (failMsg (env.attempts cfg.maxRetries)), false, req⟩,
        [FetchEvent.robotsCheck] ++
          (if cfg.cacheEnabled then [FetchEvent.cacheLookup] else []) ++
          retryTrace cfg (List.range (cfg.maxRetries + 1))) ∧
    (retryTrace cfg (List.range (cfg.maxRetries + 1))).countP
        (fun e => match e with | FetchEvent.networkGet _ => true | _ => false) =
      cfg.maxRetries + 1 := by
  have hloopargs : ∀ a ∈ List.range (cfg.maxRetries + 1), attemptFails (env.attempts a) := by
    intro a ha
    exact hfail a (by have := List.mem_range.mp ha; omega)
  have hloop := fetchLoop_all_fail cfg env req (List.range (cfg.maxRetries + 1))
    none hloopargs
  constructor
  · unfold fetchRun
    rw [if_neg (by simp [hrobots])]
    by_cases hc : cfg.cacheEnabled
    · rw [if_pos hc, hcache hc]
      simp only [hloop, hc, if_pos]
      rw [lastErrAfter_range]
      simp
    · rw [if_neg hc]
      simp only [hloop, hc, if_neg, not_false_iff, if_false]
      rw [lastErrAfter_range]
      simp
  · rw [retryTrace_networkGet_count cfg (List.range (cfg.maxRetries + 1))]
    exact List.length_range (cfg.maxRetries + 1)

/-- Witness for C4: one-retry configuration, both attempts time out. -/
theorem fetcher_retry_exhaustion_witness :
    canFetch ⟨false, false, 1, 1⟩
        ⟨true, none, fun _ => AttemptOutcome.timeout⟩ = true ∧
      fetchRun ⟨false, false, 1, 1⟩ ⟨true, none, fun _ => AttemptOutcome.timeout⟩
          ⟨"https://ex.com/a", 0, 0, []⟩ =
        (⟨"https://ex.com/a", 0, "", [], some "Request timeout", false,
            ⟨"https://ex.com/a", 0, 0, []⟩⟩,
          [FetchEvent.robotsCheck] ++ ([] : List FetchEvent) ++
            retryTrace ⟨false, false, 1, 1⟩ (List.range 2)) := by
  have h1 : canFetch ⟨false, false, 1, 1⟩
      ⟨true, none, fun _ => AttemptOutcome.timeout⟩ = true := rfl
  have h2 : (⟨false, false, 1, 1⟩ : FetchConfig).cacheEnabled = true →
      (⟨true, none, fun _ => AttemptOutcome.timeout⟩ : FetchEnv).cached = none :=
    fun _ => rfl
  have h3 : ∀ i, i ≤ (⟨false, false, 1, 1⟩ : FetchConfig).maxRetries →
      attemptFails ((⟨true, none, fun _ => AttemptOutcome.timeout⟩ : FetchEnv).attempts i) :=
    fun i _ => trivial
  have hmain := (fetcher_retry_exhaustion ⟨false, false, 1, 1⟩
    ⟨true, none, fun _ => AttemptOutcome.timeout⟩ ⟨"https://ex.com/a", 0, 0, []⟩
    h1 h2 h3).1
  exact ⟨h1, by simpa using hmain⟩

/-- C5: every fetch trace starts with the robots check; a robots disallow
    returns status 403 with an explanatory error and touches neither the
    response cache, the rate limiter nor the network; and with robots
    satisfied, caching enabled and a valid cached entry, fetch returns that
    entry tagged from_cache without consulting the rate limiter or the
    network. -/
theorem fetcher_robots_first (cfg : FetchConfig) (env : FetchEnv)
    (req : CrawlRequest) :
    (∃ tl, (fetchRun cfg env req).2 = FetchEvent.robotsCheck :: tl) ∧
    (cfg.respectRobotsTxt = true → env.robotsAllowed = false →
      fetchRun cfg env req =
        (⟨req.url, 403, "", [], some "Blocked by robots.txt", false, req⟩,
          [FetchEvent.robotsCheck])) ∧
    (∀ c : CachedEntry, canFetch cfg env = true → cfg.cacheEnabled = true →
      env.cached = some c →
      fetchRun cfg env req =
        (⟨c.url, c.statusCode, c.content, c.headers, none, true, req⟩,
          [FetchEvent.robotsCheck, FetchEvent.cacheLookup])) := by
  refine ⟨?_, ?_, ?_⟩
  · unfold fetchRun
    by_cases h1 : canFetch cfg env = false
    · rw [if_pos h1]; exact ⟨[], rfl⟩
    · rw [if_neg h1]
      by_cases h2 : cfg.cacheEnabled
      · rw [if_pos h2]
        cases hc : env.cached with
        | some c => exact ⟨[FetchEvent.cacheLookup], rfl⟩
        | none => exact ⟨_, rfl⟩
      · rw [if_neg h2]
        exact ⟨_, rfl⟩
  · intro hresp hallow
    have hcf : canFetch cfg env = false := by simp [canFetch, hresp, hallow]
    unfold fetchRun
    rw [if_pos hcf]
  · intro c hcf hen hcached
    unfold fetchRun
    rw [if_neg (by simp [hcf]), if_pos hen, hcached]

/-- Witness for C5: a disallowed URL under robots enforcement. -/
theorem fetcher_robots_first_witness :
    (⟨true, true, 0, 1⟩ : FetchConfig).respectRobotsTxt = true ∧
      fetchRun ⟨true, true, 0, 1⟩ ⟨false, none, fun _ => AttemptOutcome.timeout⟩
          ⟨"https://ex.com/a", 0, 0, []⟩ =
        (⟨"https://ex.com/a", 403, "", [], some "Blocked by robots.txt", false,
            ⟨"https://ex.com/a", 0, 0, []⟩⟩,
          [FetchEvent.robotsCheck]) := by
  exact ⟨rfl, (fetcher_robots_first ⟨true, true, 0, 1⟩
    ⟨false, none, fun _ => AttemptOutcome.timeout⟩
    ⟨"https://ex.com/a", 0, 0, []⟩).2.1 rfl rfl⟩

/-- Witness for C6: a one-entry scheduler state round-trips exactly. -/
theorem scheduler_checkpoint_roundtrip_witness :
    ([ "https://ex.com/a" ] : List String).Nodup ∧
      (restoreState 10000 (getState ⟨10000,
        [(0, 1, ⟨"https://ex.com/a", 0, 0, []⟩)], 1, ["https://ex.com/a"]⟩)).seen =
        (⟨10000, [(0, 1, ⟨"https://ex.com/a", 0, 0, []⟩)], 1,
          ["https://ex.com/a"]⟩ : SchedState).seen := by
  have h1 : ([ "https://ex.com/a" ] : List String).Nodup := by decide
  exact ⟨h1, (scheduler_checkpoint_roundtrip
    ⟨10000, [(0, 1, ⟨"https://ex.com/a", 0, 0, []⟩)], 1, ["https://ex.com/a"]⟩
    10000 h1).1⟩

/-- Counterexample for C9: when both writes of the same URL land in one
    batch file and the format is rename-eligible (here parquet), consolidate
    takes the single-file rename path (pipeline.py lines 317-320) and the
    final output keeps both records — not exactly one. -/
theorem consolidate_single_batch_counterexample :
    consolidate Fmt.parquet
        [[⟨"https://ex.com/A", "v1"⟩, ⟨"https://ex.com/A", "v2"⟩]] =
      ConsolidateResult.renamed
        [⟨"https://ex.com/A", "v1"⟩, ⟨"https://ex.com/A", "v2"⟩] ∧
    countUrl [⟨"https://ex.com/A", "v1"⟩, ⟨"https://ex.com/A", "v2"⟩]
        "https://ex.com/A" = 2 ∧
    ("v1" : String) ≠ "v2" := by
  refine ⟨by decide, by decide, by decide⟩

/-- C9 as amended: whenever consolidate takes the merge path — at least two
    batch files, or a json/sqlite output format — a URL written more than
    once appears in the final output exactly once, with the record equal to
    its latest write; with a single batch file in another format the batch
    file is renamed unchanged, duplicates included. -/
theorem consolidate_merge_dedups (fmt : Fmt) (batches : List (List Row))
    (u : String)
    (hpath : 2 ≤ batches.length ∨ fmt = Fmt.json ∨ fmt = Fmt.sqlite)
    (hoccurs : ∃ r ∈ batches.flatten, r.url = u) :
    consolidate fmt batches =
        ConsolidateResult.merged (dedupKeepLast batches.flatten) ∧
    countUrl (dedupKeepLast batches.flatten) u = 1 ∧
    ∀ r ∈ dedupKeepLast batches.flatten, r.url = u →
      lastWrite batches.flatten u = some r := by
  obtain ⟨r0, hr0mem, hr0url⟩ := hoccurs
  have hfmem : r0 ∈ batches.flatten.filter (fun x => x.url = u) :=
    List.mem_filter.mpr ⟨hr0mem, by simp [hr0url]⟩
  have hfne : batches.flatten.filter (fun x => x.url = u) ≠ [] := by
    intro hnil
    rw [hnil] at hfmem
    exact absurd hfmem (List.not_mem_nil r0)
  have hbne : batches ≠ [] := by
    intro hb
    subst hb
    simp at hr0mem
  refine ⟨?_, ?_, ?_⟩
  · unfold consolidate
    rw [if_neg (by simp [hbne]), if_neg ?_]
    rintro ⟨hlen, hjson, hsqlite⟩
    rcases hpath with h2 | hj | hs
    · omega
    · exact hjson hj
    · exact hsqlite hs
  · unfold countUrl
    rw [dedupKeepLast_filter]
    cases hg : lastWrite batches.flatten u with
    | none =>
      unfold lastWrite at hg
      rw [List.getLast?_eq_none_iff] at hg
      exact absurd hg hfne
    | some w => rfl
  · intro r hr hrurl
    have hmem : r ∈ (dedupKeepLast batches.flatten).filter (fun x => x.url = u) :=
      List.mem_filter.mpr ⟨hr, by simp [hrurl]⟩
    rw [dedupKeepLast_filter] at hmem
    cases hg : lastWrite batches.flatten u with
    | none => rw [hg] at hmem; simp at hmem
    | some w =>
      rw [hg] at hmem
      simp only [List.mem_singleton] at hmem
      exact congrArg some hmem.symm

/-- Witness for C9: the same URL written in two different batch files. -/
theorem consolidate_merge_dedups_witness :
    (2 ≤ ([[⟨"https://ex.com/A", "v1"⟩], [⟨"https://ex.com/A", "v2"⟩]] :
        List (List Row)).length ∨ Fmt.parquet = Fmt.json ∨
        Fmt.parquet = Fmt.sqlite) ∧
    (∃ r ∈ ([[⟨"https://ex.com/A", "v1"⟩], [⟨"https://ex.com/A", "v2"⟩]] :
        List (List Row)).flatten, r.url = "https://ex.com/A") ∧
    countUrl (dedupKeepLast ([[⟨"https://ex.com/A", "v1"⟩],
        [⟨"https://ex.com/A", "v2"⟩]] : List (List Row)).flatten)
      "https://ex.com/A" = 1 := by
  have h1 : 2 ≤ ([[⟨"https://ex.com/A", "v1"⟩], [⟨"https://ex.com/A", "v2"⟩]] :
      List (List Row)).length ∨ Fmt.parquet = Fmt.json ∨
      Fmt.parquet = Fmt.sqlite := by decide
  have h2 : ∃ r ∈ ([[⟨"https://ex.com/A", "v1"⟩], [⟨"https://ex.com/A", "v2"⟩]] :
      List (List Row)).flatten, r.url = "https://ex.com/A" := by decide
  exact ⟨h1, h2, (consolidate_merge_dedups Fmt.parquet
    [[⟨"https://ex.com/A", "v1"⟩], [⟨"https://ex.com/A", "v2"⟩]]
    "https://ex.com/A" h1 h2).2.1⟩

/-- Counterexample for C3: _normalize_url lowercases the whole normalized
    string, so the query is lowercased too — against the claim's "exactly
    the scheme, host, and path" (the spec-modelled comparison function
    specC3Normalize keeps the query case and disagrees); and because
    rstrip runs on the full string, a trailing path slash is not dropped
    when a query is present, so a pair differing only in that slash
    normalizes differently. -/
theorem normalize_lowercase_counterexample :
    normalizeUrl "https://ex.com/a?X=1" = "https://ex.com/a?x=1" ∧
    specC3Normalize "https://ex.com/a?X=1" = "https://ex.com/a?X=1" ∧
    normalizeUrl "https://ex.com/a?X=1" ≠ specC3Normalize "https://ex.com/a?X=1" ∧
    normalizeUrl "https://ex.com/a/?x=1" ≠ normalizeUrl "https://ex.com/a?x=1" := by
  exact ⟨by decide, by decide, by decide, by decide⟩

/-- C3 as amended: normalization lowercases the entire normalized string
    (scheme, host, path and query), sorts the decoded query pairs, strips
    the fragment, and drops trailing slashes from the end of the normalized
    string — so a trailing path slash is only dropped when there is no
    query.  Consequently: the spec's example pairs normalize identically;
    two URLs whose parses differ only in the ASCII case of the netloc
    normalize identically; two URLs whose parses differ only in
    query-parameter order normalize identically; two query-free URLs whose
    parses differ only in trailing path slashes normalize identically; and
    whenever two request URLs normalize identically, a successful add of the
    first makes an immediately following add of the second return False with
    the state unchanged, so at most one of them enters the frontier. -/
theorem normalize_dedup_amended :
    (normalizeUrl "https://EX.com/a/" = normalizeUrl "https://ex.com/a") ∧
    (normalizeUrl "https://ex.com/a?x=1&y=2" = normalizeUrl "https://ex.com/a?y=2&x=1") ∧
    (∀ u1 u2 : String,
      (urlparts u1).scheme = (urlparts u2).scheme →
      lowerL (urlparts u1).netloc = lowerL (urlparts u2).netloc →
      (urlparts u1).path = (urlparts u2).path →
      (urlparts u1).query = (urlparts u2).query →
      normalizeUrl u1 = normalizeUrl u2) ∧
    (∀ u1 u2 : String,
      (urlparts u1).scheme = (urlparts u2).scheme →
      (urlparts u1).netloc = (urlparts u2).netloc →
      (urlparts u1).path = (urlparts u2).path →
      ((urlparts u1).query = [] ↔ (urlparts u2).query = []) →
      (parseQsl (urlparts u1).query).Perm (parseQsl (urlparts u2).query) →
      normalizeUrl u1 = normalizeUrl u2) ∧
    (∀ u1 u2 : String,
      (urlparts u1).scheme = (urlparts u2).scheme →
      (urlparts u1).netloc = (urlparts u2).netloc →
      (urlparts u1).query = [] → (urlparts u2).query = [] →
      rstripSlashes (urlparts u1).path = rstripSlashes (urlparts u2).path →
      normalizeUrl u1 = normalizeUrl u2) ∧
    (∀ (s : SchedState) (r1 r2 : CrawlRequest) (s1 : SchedState),
      normalizeUrl r1.url = normalizeUrl r2.url →
      addReq s r1 = (s1, true) → addReq s1 r2 = (s1, false)) := by
  refine ⟨by decide, by decide, ?_, ?_, ?_, ?_⟩
  · intro u1 u2 hs hn hp hq
    simp only [normalizeUrl, normalizeFromParts]
    refine congrArg String.mk ?_
    rw [← rstrip_lower_comm, ← rstrip_lower_comm]
    refine congrArg rstripSlashes ?_
    simp only [hs, hp, hq]
    by_cases hqe : (urlparts u2).query = []
    · simp only [hqe, if_pos]
      simp only [lowerL, List.map_append, List.map_cons] at hn ⊢
      rw [hn]
    · simp only [hqe, if_neg, not_false_iff, if_false]
      simp only [lowerL, List.map_append, List.map_cons] at hn ⊢
      rw [hn]
  · intro u1 u2 hs hn hp hqiff hperm
    simp only [normalizeUrl, normalizeFromParts]
    refine congrArg String.mk ?_
    refine congrArg lowerL (congrArg rstripSlashes ?_)
    by_cases hqe : (urlparts u1).query = []
    · have hqe2 : (urlparts u2).query = [] := hqiff.mp hqe
      simp only [hs, hn, hp, hqe, hqe2, if_pos]
    · have hqe2 : (urlparts u2).query ≠ [] := fun hc => hqe (hqiff.mpr hc)
      simp only [hs, hn, hp, hqe, hqe2, if_neg, not_false_iff, if_false]
      rw [sortPairs_perm_congr hperm]
  · intro u1 u2 hs hn hq1 hq2 hpath
    simp only [normalizeUrl, normalizeFromParts]
    refine congrArg String.mk ?_
    simp only [hq1, hq2, if_pos, hs, hn]
    refine congrArg lowerL ?_
    have hshape : ∀ (s n p : List Char),
        s ++ ':' :: '/' :: '/' :: (n ++ p) = (s ++ ':' :: '/' :: '/' :: n) ++ p := by
      intro s n p
      simp
    rw [hshape, hshape]
    exact rstrip_append_congr _ hpath
  · intro s r1 r2 s1 hnorm hadd
    unfold addReq at hadd
    by_cases h1 : normalizeUrl r1.url ∈ s.seen
    · simp [h1] at hadd
    · by_cases h2 : s.maxQueueSize ≤ s.queue.length
      · simp [h1, h2] at hadd
      · simp only [h1, h2, if_neg, not_false_iff, if_false, Prod.mk.injEq] at hadd
        have hseen : normalizeUrl r2.url ∈ s1.seen := by
          rw [← hadd.1, ← hnorm]
          exact List.mem_append_right _ (List.mem_singleton.mpr rfl)
        unfold addReq
        rw [if_pos hseen]

/-- Witness for C3 as amended: the spec's query-order pair instantiates the
    query-permutation conjunct. -/
theorem normalize_dedup_amended_witness :
    ((urlparts "https://ex.com/a?x=1&y=2").scheme =
        (urlparts "https://ex.com/a?y=2&x=1").scheme) ∧
    ((urlparts "https://ex.com/a?x=1&y=2").netloc =
        (urlparts "https://ex.com/a?y=2&x=1").netloc) ∧
    ((urlparts "https://ex.com/a?x=1&y=2").path =
        (urlparts "https://ex.com/a?y=2&x=1").path) ∧
    ((urlparts "https://ex.com/a?x=1&y=2").query = [] ↔
        (urlparts "https://ex.com/a?y=2&x=1").query = []) ∧
    (parseQsl (urlparts "https://ex.com/a?x=1&y=2").query).Perm
        (parseQsl (urlparts "https://ex.com/a?y=2&x=1").query) ∧
    normalizeUrl "https://ex.com/a?x=1&y=2" = normalizeUrl "https://ex.com/a?y=2&x=1" := by
  have h1 : (urlparts "https://ex.com/a?x=1&y=2").scheme =
      (urlparts "https://ex.com/a?y=2&x=1").scheme := by decide
  have h2 : (urlparts "https://ex.com/a?x=1&y=2").netloc =
      (urlparts "https://ex.com/a?y=2&x=1").netloc := by decide
  have h3 : (urlparts "https://ex.com/a?x=1&y=2").path =
      (urlparts "https://ex.com/a?y=2&x=1").path := by decide
  have h4 : (urlparts "https://ex.com/a?x=1&y=2").query = [] ↔
      (urlparts "https://ex.com/a?y=2&x=1").query = [] := by decide
  have h5 : (parseQsl (urlparts "https://ex.com/a?x=1&y=2").query).Perm
      (parseQsl (urlparts "https://ex.com/a?y=2&x=1").query) := by decide
  exact ⟨h1, h2, h3, h4, h5, normalize_dedup_amended.2.2.2.1
    "https://ex.com/a?x=1&y=2" "https://ex.com/a?y=2&x=1" h1 h2 h3 h4 h5⟩

end Ergane
